import Mathlib

/-!
Verification of the text-normalization, tokenization and matching core of the
Google-Sheet search tool (`src/main.py`, class `DataProcessor`), together with
the result filtering/sorting step of `GoogleSheetSearchApp.show_main_app`.

Strings are modelled as `List Char`.  Python's Unicode-dependent character
classes (`str.lower`, `\w`, `\d`, `\s`) are modelled over the alphabet the
application works with: ASCII, the Cyrillic letters (with ё/Ё), the dash
variants – and —, the multiplication sign ×, and the superscript two '²'.
Every scanner that in Python is a single `re.sub`/`re.findall` pass is written
as a structurally recursive function on a fuel parameter (initialised to the
length of the scanned string, which every scan step strictly decreases), so
that all definitions compute by kernel reduction.
-/

namespace SheetSearch

/-- Text is a list of characters, as produced by `String.data`. -/
abbrev Str := List Char

/-- The regex class `\s`: ASCII whitespace, as in Python's `re` for the
characters occurring in spreadsheet text. -/
def isSpaceCh (c : Char) : Bool :=
  c == ' ' || c == '\t' || c == '\n' || c == '\r' || c == '\x0b' || c == '\x0c'

/-- The regex class `\d` (decimal digits) for the modelled alphabet. -/
def isDigitCh (c : Char) : Bool :=
  '0' ≤ c && c ≤ '9'

/-- The regex class `\w` (word characters: letters, digits, underscore,
Unicode-aware) restricted to the modelled alphabet.  Note that Python's
Unicode-aware `\w` counts the superscript two '²' as a word character
(it is a numeric character), which the model preserves. -/
def isWordCh (c : Char) : Bool :=
  ('0' ≤ c && c ≤ '9') || ('a' ≤ c && c ≤ 'z') || ('A' ≤ c && c ≤ 'Z') || c == '_' ||
    ('а' ≤ c && c ≤ 'я') || ('А' ≤ c && c ≤ 'Я') || c == 'ё' || c == 'Ё' || c == '²'

/-- The case table of `str.lower()` restricted to the modelled alphabet:
the 26 Latin letters, the 32 Cyrillic letters А..Я and Ё. -/
def lowerTable : List (Char × Char) :=
  [ ('A', 'a'), ('B', 'b'), ('C', 'c'), ('D', 'd'), ('E', 'e'), ('F', 'f'),
    ('G', 'g'), ('H', 'h'), ('I', 'i'), ('J', 'j'), ('K', 'k'), ('L', 'l'),
    ('M', 'm'), ('N', 'n'), ('O', 'o'), ('P', 'p'), ('Q', 'q'), ('R', 'r'),
    ('S', 's'), ('T', 't'), ('U', 'u'), ('V', 'v'), ('W', 'w'), ('X', 'x'),
    ('Y', 'y'), ('Z', 'z'),
    ('А', 'а'), ('Б', 'б'), ('В', 'в'), ('Г', 'г'), ('Д', 'д'), ('Е', 'е'),
    ('Ж', 'ж'), ('З', 'з'), ('И', 'и'), ('Й', 'й'), ('К', 'к'), ('Л', 'л'),
    ('М', 'м'), ('Н', 'н'), ('О', 'о'), ('П', 'п'), ('Р', 'р'), ('С', 'с'),
    ('Т', 'т'), ('У', 'у'), ('Ф', 'ф'), ('Х', 'х'), ('Ц', 'ц'), ('Ч', 'ч'),
    ('Ш', 'ш'), ('Щ', 'щ'), ('Ъ', 'ъ'), ('Ы', 'ы'), ('Ь', 'ь'), ('Э', 'э'),
    ('Ю', 'ю'), ('Я', 'я'), ('Ё', 'ё') ]

/-- `str.lower()` on one character (identity outside the case table). -/
def lowerChar (c : Char) : Char :=
  match lowerTable.find? (fun p => p.1 == c) with
  | some p => p.2
  | none => c

/-- `text.replace(k, v)` (Python `str.replace`): replace every non-overlapping
occurrence of `k`, scanning left to right and continuing after each
replacement.  The fuel is initialised to the length of the scanned string;
every step consumes at least one character of it. -/
def replaceAllAux (k v : Str) : Nat → Str → Str
  | 0, s => s
  | fuel + 1, s =>
    if 1 ≤ k.length ∧ k.isPrefixOf s = true then
      v ++ replaceAllAux k v fuel (s.drop k.length)
    else
      match s with
      | [] => []
      | c :: rest => c :: replaceAllAux k v fuel rest

/-- `text.replace(k, v)`. -/
def replaceAll (k v s : Str) : Str :=
  replaceAllAux k v s.length s

/-- The ordered literal replacements of `DataProcessor.normalize_text`
(`src/main.py` lines 64-78); Python dicts iterate in insertion order, and the
replacements are applied sequentially in that order. -/
def replacements : List (Str × Str) :=
  [ (['х'], ['x']),
    (['–'], ['-']),
    (['—'], ['-']),
    (['ё'], ['е']),
    (['м', 'м', '2'], ['м', 'м', '²']),
    (['м', 'м', '^', '2'], ['м', 'м', '²']),
    (['с', 'м', '2'], ['с', 'м', '²']),
    (['с', 'м', '^', '2'], ['с', 'м', '²']),
    (['м', '2'], ['м', '²']),
    (['м', '^', '2'], ['м', '²']) ]

/-- The `for k, v in replacements.items(): text = text.replace(k, v)` loop. -/
def applyReplacements (s : Str) : Str :=
  replacements.foldl (fun t kv => replaceAll kv.1 kv.2 t) s

/-- The lookahead `(?=мм²|см²|м²)`: does the text start with a unit symbol? -/
def unitAhead (s : Str) : Bool :=
  List.isPrefixOf (("мм²").data) s || List.isPrefixOf (("см²").data) s ||
    List.isPrefixOf (("м²").data) s

/-- Is the optional previous character a digit (for the lookbehind `(?<=\d)`)? -/
def isDigitOpt : Option Char → Bool
  | some c => isDigitCh c
  | none => false

/-- `re.sub(r'(?<=\d)\s+(?=мм²|см²|м²)', '', text)` (`src/main.py` line 81):
scan left to right, and whenever the previous character is a digit and a
maximal whitespace run is immediately followed by a unit symbol, delete that
run.  `p` is the previously scanned character (`none` at the start of the
text); after deleting a run the scan continues at the unit symbol, whose
original predecessor is a whitespace character of the run — only its
digit-ness matters afterwards, so the run's first character is passed on. -/
def collapseAux : Nat → Option Char → Str → Str
  | 0, _, s => s
  | fuel + 1, p, s =>
    match s with
    | [] => []
    | c :: rest =>
      if isDigitOpt p && isSpaceCh c && unitAhead ((c :: rest).dropWhile isSpaceCh) then
        collapseAux fuel (some c) ((c :: rest).dropWhile isSpaceCh)
      else
        c :: collapseAux fuel (some c) rest

/-- The whitespace-collapsing step of `normalize_text`. -/
def collapseSpaces (s : Str) : Str :=
  collapseAux s.length none s

/-- `DataProcessor.normalize_text` (`src/main.py` lines 60-83): lower-case,
apply the ordered literal replacements, then delete whitespace sitting
between a digit and a unit symbol. -/
def normalize_text (s : Str) : Str :=
  collapseSpaces (applyReplacements (s.map lowerChar))

/-- The number pattern `\d+(?:[.,]\d+)?`: length of its match at the head of
`s`, if it matches there.  The pattern is deterministic: the maximal digit
run, extended by a decimal separator and the following maximal digit run when
present (a shorter backtracked match would resume at a digit, a '.' or a ','
where the enclosing patterns require a size separator, whitespace, 'x' or a
word boundary, so Python's backtracking never produces a shorter match). -/
def matchNum (s : Str) : Option Nat :=
  let d := s.takeWhile isDigitCh
  if d.length = 0 then none
  else
    match s.drop d.length with
    | sep :: t =>
      if (sep == '.' || sep == ',') && 1 ≤ (t.takeWhile isDigitCh).length then
        some (d.length + 1 + (t.takeWhile isDigitCh).length)
      else some d.length
    | [] => some d.length

/-- The size-separator class `[xх×*]` (Latin x, Cyrillic х, ×, *). -/
def sizeSep (c : Char) : Bool :=
  c == 'x' || c == 'х' || c == '×' || c == '*'

/-- One attempt of the compound-size pattern
`(\d+(?:[.,]\d+)?)\s*[xх×*]\s*(\d+(?:[.,]\d+)?)` at the head of `s`; on
success, returns the replacement `\1x\2` and the rest of the text after the
match. -/
def matchSize (s : Str) : Option (Str × Str) :=
  match matchNum s with
  | none => none
  | some n1 =>
    match (s.drop n1).dropWhile isSpaceCh with
    | sep :: r3 =>
      if sizeSep sep then
        let r4 := r3.dropWhile isSpaceCh
        match matchNum r4 with
        | none => none
        | some n2 => some (s.take n1 ++ 'x' :: r4.take n2, r4.drop n2)
      else none
    | [] => none

/-- `re.sub(r'(\d+(?:[.,]\d+)?)\s*[xх×*]\s*(\d+(?:[.,]\d+)?)', r'\1x\2', text)`
(`src/main.py` lines 90-94): left-to-right scan, replacing each
non-overlapping match and continuing after it.  Each match consumes at least
two characters, so the fuel (the scanned length) suffices. -/
def mergeSizesAux : Nat → Str → Str
  | 0, s => s
  | fuel + 1, s =>
    match s with
    | [] => []
    | c :: rest =>
      match matchSize (c :: rest) with
      | some (rep, r) => rep ++ mergeSizesAux fuel r
      | none => c :: mergeSizesAux fuel rest

/-- The compound-size merging step of `split_preserve_sizes`. -/
def mergeSizes (s : Str) : Str :=
  mergeSizesAux s.length s

/-- Is the optional previous character a word character?  The unit patterns
start with a word character (м or с), so their leading `\b` holds exactly
when the previous character is absent or not a word character. -/
def boundaryOk : Option Char → Bool
  | some c => !isWordCh c
  | none => true

/-- The tail `\s*[\^]?\s*2\b` of the unit patterns, matched after the unit
keyword; returns the rest of the text after the matched '2' when it matches.
Deterministic: `\s*` cannot eat '^' or '2', and if taking the optional '^'
fails then so does leaving it (the '2' would have to sit where '^' is). -/
def matchUnitTail (s : Str) : Option Str :=
  let s1 := s.dropWhile isSpaceCh
  let s2 := match s1 with
            | '^' :: t => t.dropWhile isSpaceCh
            | _ => s1
  match s2 with
  | '2' :: rest =>
    match rest with
    | [] => some []
    | d :: _ => if isWordCh d then none else some rest
  | _ => none

/-- `re.sub(r'\bKW\s*[\^]?\s*2\b', UNIT, text)` for a unit keyword `KW`
(`src/main.py` lines 97-99): left-to-right scan with the previous character
tracked for the leading word boundary; after a match the scan continues after
the matched '2', which becomes the previous character. -/
def unitSubAux (kw unit : Str) : Nat → Option Char → Str → Str
  | 0, _, s => s
  | fuel + 1, p, s =>
    match s with
    | [] => []
    | c :: rest =>
      if boundaryOk p && kw.isPrefixOf (c :: rest) then
        match matchUnitTail ((c :: rest).drop kw.length) with
        | some r => unit ++ unitSubAux kw unit fuel (some '2') r
        | none => c :: unitSubAux kw unit fuel (some c) rest
      else c :: unitSubAux kw unit fuel (some c) rest

/-- One unit-collapsing substitution pass. -/
def unitSub (kw unit s : Str) : Str :=
  unitSubAux kw unit s.length none s

/-- The three unit-collapsing substitutions of `split_preserve_sizes`, in
source order: мм, then см, then bare м. -/
def collapseUnits (s : Str) : Str :=
  unitSub (("м").data) (("м²").data)
    (unitSub (("см").data) (("см²").data)
      (unitSub (("мм").data) (("мм²").data) s))

/-- The compound-size alternative `\d+(?:[.,]\d+)?x\d+(?:[.,]\d+)?` of the
final `re.findall` (literal Latin 'x', no whitespace): length of its match at
the head of `s`, if any. -/
def matchCompound (s : Str) : Option Nat :=
  match matchNum s with
  | none => none
  | some n1 =>
    match s.drop n1 with
    | 'x' :: r2 =>
      match matchNum r2 with
      | none => none
      | some n2 => some (n1 + 1 + n2)
    | _ => none

/-- `re.findall(r'\d+(?:[.,]\d+)?x\d+(?:[.,]\d+)?|мм²|см²|м²|\w+', text)`
(`src/main.py` line 102): at each position the alternatives are tried in
their listed order (Python alternation prefers the first alternative that
matches, not the longest); on a match the scan continues after it, and a
position matched by no alternative is skipped. -/
def findTokensAux : Nat → Str → List Str
  | 0, _ => []
  | fuel + 1, s =>
    match s with
    | [] => []
    | c :: rest =>
      match matchCompound (c :: rest) with
      | some n => (c :: rest).take n :: findTokensAux fuel ((c :: rest).drop n)
      | none =>
        if List.isPrefixOf (("мм²").data) (c :: rest) then
          ("мм²").data :: findTokensAux fuel ((c :: rest).drop 3)
        else if List.isPrefixOf (("см²").data) (c :: rest) then
          ("см²").data :: findTokensAux fuel ((c :: rest).drop 3)
        else if List.isPrefixOf (("м²").data) (c :: rest) then
          ("м²").data :: findTokensAux fuel ((c :: rest).drop 2)
        else if isWordCh c then
          (c :: rest).takeWhile isWordCh :: findTokensAux fuel ((c :: rest).dropWhile isWordCh)
        else findTokensAux fuel rest

/-- The final token-extraction pass of `split_preserve_sizes`. -/
def findTokens (s : Str) : List Str :=
  findTokensAux s.length s

/-- `DataProcessor.split_preserve_sizes` (`src/main.py` lines 85-104):
normalize, merge compound sizes, collapse spaced/caret unit notations, then
extract tokens. -/
def split_preserve_sizes (s : Str) : List Str :=
  findTokens (collapseUnits (mergeSizes (normalize_text s)))

/-- `DataProcessor.match_query` (`src/main.py` lines 106-112):
`sum(1 for word in query_words if word in row_words)`, then the
require-all gate. -/
def match_query (rowText : Str) (queryWords : List Str) (requireAll : Bool) : Nat :=
  let rowWords := split_preserve_sizes rowText
  let matchCount := queryWords.countP (fun w => decide (w ∈ rowWords))
  if requireAll then
    if matchCount = queryWords.length then matchCount else 0
  else matchCount

/-- Modelled from the spec (§4.2, the claim's reading of the final
extraction pass): "matching, at each position, the longest of: a compound
size token, one of the three unit symbols, or a maximal run of word
characters".  The longest matching alternative is emitted; positions matched
by no alternative are skipped. -/
def longestAlt (s : Str) : Option Nat :=
  ((match matchCompound s with
    | some n => [n]
    | none => []) ++
   (if List.isPrefixOf (("мм²").data) s then [3] else []) ++
   (if List.isPrefixOf (("см²").data) s then [3] else []) ++
   (if List.isPrefixOf (("м²").data) s then [2] else []) ++
   (if 1 ≤ (s.takeWhile isWordCh).length then [(s.takeWhile isWordCh).length] else [])).max?

/-- Modelled from the spec: the longest-match token-extraction scan. -/
def extractLongestAux : Nat → Str → List Str
  | 0, _ => []
  | fuel + 1, s =>
    match s with
    | [] => []
    | c :: rest =>
      match longestAlt (c :: rest) with
      | some n => (c :: rest).take n :: extractLongestAux fuel ((c :: rest).drop n)
      | none => extractLongestAux fuel rest

/-- Modelled from the spec: the longest-match token-extraction pass. -/
def extractLongest (s : Str) : List Str :=
  extractLongestAux s.length s

/-- Convenience wrapper: tokenization on `String` values. -/
def tokenizeStr (s : String) : List String :=
  (split_preserve_sizes s.data).map (fun t => String.mk t)

/-- Does `k` occur as a contiguous substring of `s`? -/
def occursIn (k : Str) : Str → Bool
  | [] => k.isPrefixOf []
  | c :: rest => k.isPrefixOf (c :: rest) || occursIn k rest

/-- Is some occurrence of м immediately followed by the digit 2?  Every
replacement key of the unit family contains such a pair or a м^2 triple. -/
def hasM2 : Str → Bool
  | a :: b :: t => (a == 'м' && b == '2') || hasM2 (b :: t)
  | _ => false

/-- Is some occurrence of м immediately followed by '^' and the digit 2? -/
def hasMCaret2 : Str → Bool
  | a :: b :: c :: t => (a == 'м' && b == '^' && c == '2') || hasMCaret2 (b :: c :: t)
  | _ => false

/-!  Theorems. -/

/-- No lower-case image is itself a key of the case table. -/
theorem lowerTable_no_chain :
    ∀ p ∈ lowerTable, lowerTable.find? (fun q => q.1 == p.2) = none := by decide

/-- `str.lower()` is idempotent on characters. -/
theorem lowerChar_idem (c : Char) : lowerChar (lowerChar c) = lowerChar c := by
  unfold lowerChar
  cases h : lowerTable.find? (fun p => p.1 == c) with
  | none => rw [h]
  | some p =>
    have hp := List.mem_of_find?_eq_some h
    rw [lowerTable_no_chain p hp]

/-- Mapping `lower` over an everywhere-lowered text is the identity. -/
theorem map_lowerChar_id (s : Str) (h : ∀ c ∈ s, lowerChar c = c) :
    s.map lowerChar = s := by
  induction s with
  | nil => rfl
  | cons c rest ih =>
    simp only [List.map_cons, h c (by simp)]
    rw [ih (fun d hd => h d (by simp [hd]))]

/-- A whitespace character is not a digit. -/
theorem isSpaceCh_not_digit {c : Char} (h : isSpaceCh c = true) :
    isDigitCh c = false := by
  simp only [isSpaceCh, Bool.or_eq_true, beq_iff_eq] at h
  rcases h with (((((rfl | rfl) | rfl) | rfl) | rfl) | rfl) <;> decide

/-- Unfolding: zero fuel returns the text unchanged. -/
theorem replaceAllAux_zero (k v s : Str) : replaceAllAux k v 0 s = s := rfl

/-- Unfolding: one scan step. -/
theorem replaceAllAux_succ (k v : Str) (fuel : Nat) (s : Str) :
    replaceAllAux k v (fuel + 1) s =
      if 1 ≤ k.length ∧ k.isPrefixOf s = true then
        v ++ replaceAllAux k v fuel (s.drop k.length)
      else
        match s with
        | [] => []
        | c :: rest => c :: replaceAllAux k v fuel rest := rfl

/-- Characters of the rewritten text come from the original text or from the
replacement value. -/
theorem mem_replaceAllAux (k v : Str) :
    ∀ (fuel : Nat) (s : Str) (c : Char), c ∈ replaceAllAux k v fuel s →
      c ∈ s ∨ c ∈ v := by
  intro fuel
  induction fuel with
  | zero => intro s c hc; exact Or.inl hc
  | succ n ih =>
    intro s c hc
    by_cases hpre : 1 ≤ k.length ∧ k.isPrefixOf s = true
    · rw [replaceAllAux_succ, if_pos hpre] at hc
      rcases List.mem_append.mp hc with hv | hr
      · exact Or.inr hv
      · rcases ih _ c hr with hd | hv
        · exact Or.inl (List.drop_subset _ _ hd)
        · exact Or.inr hv
    · rw [replaceAllAux_succ, if_neg hpre] at hc
      match s, hc with
      | d :: rest, hc =>
        rcases List.mem_cons.mp hc with rfl | hr
        · exact Or.inl (by simp)
        · rcases ih rest c hr with hd | hv
          · exact Or.inl (by simp [hd])
          · exact Or.inr hv

/-- If the key occurs nowhere in the text, the replacement is the identity. -/
theorem replaceAllAux_id (k v : Str) :
    ∀ (fuel : Nat) (s : Str), occursIn k s = false →
      replaceAllAux k v fuel s = s := by
  intro fuel
  induction fuel with
  | zero => intro s _; rfl
  | succ n ih =>
    intro s hocc
    match s with
    | [] =>
      have hk : k.isPrefixOf ([] : Str) = false := by simpa [occursIn] using hocc
      rw [replaceAllAux_succ, if_neg]
      rintro ⟨-, hp⟩
      simp [hk] at hp
    | c :: rest =>
      have h2 : k.isPrefixOf (c :: rest) = false ∧ occursIn k rest = false := by
        simpa [occursIn] using hocc
      rw [replaceAllAux_succ, if_neg]
      · show c :: replaceAllAux k v n rest = c :: rest
        rw [ih rest h2.2]
      · rintro ⟨-, hp⟩
        simp [h2.1] at hp

/-- Occurrence of a one-character key is membership. -/
theorem occursIn_singleton (a : Char) :
    ∀ s : Str, occursIn [a] s = true ↔ a ∈ s := by
  intro s
  induction s with
  | nil => simp [occursIn, List.isPrefixOf]
  | cons c rest ih =>
    simp [occursIn, List.isPrefixOf, ih]

/-- Replacing a one-character key removes every occurrence of that character,
provided it does not occur in the replacement value. -/
theorem replaceAllAux_single_elim (a : Char) (v : Str) (hv : a ∉ v) :
    ∀ (fuel : Nat) (s : Str), s.length ≤ fuel →
      a ∉ replaceAllAux [a] v fuel s := by
  intro fuel
  induction fuel with
  | zero =>
    intro s hs
    have hnil : s = [] := List.eq_nil_of_length_eq_zero (Nat.le_zero.mp hs)
    subst hnil
    simp [replaceAllAux_zero]
  | succ n ih =>
    intro s hs
    match s with
    | [] =>
      intro hmem
      rw [replaceAllAux_succ] at hmem
      simp [List.isPrefixOf] at hmem
    | c :: rest =>
      by_cases hc : c = a
      · subst hc
        have hpre : 1 ≤ ([c] : Str).length ∧ ([c] : Str).isPrefixOf (c :: rest) = true := by
          simp [List.isPrefixOf]
        rw [replaceAllAux_succ, if_pos hpre]
        intro hmem
        rcases List.mem_append.mp hmem with h | h
        · exact hv h
        · exact ih (List.drop 1 (c :: rest)) (by simpa using Nat.le_of_succ_le_succ hs) h
      · have hpre : ¬ (1 ≤ ([a] : Str).length ∧ ([a] : Str).isPrefixOf (c :: rest) = true) := by
          rintro ⟨-, hp⟩
          simp [List.isPrefixOf] at hp
          exact hc hp.symm
        rw [replaceAllAux_succ, if_neg hpre]
        intro hmem
        rcases List.mem_cons.mp hmem with rfl | h
        · exact hc rfl
        · exact ih rest (Nat.le_of_succ_le_succ hs) h

/-- The whitespace-collapsing scan of `normalize_text` is the identity on any
text in which no digit occurs, provided the previous character is not a
digit: the deleted runs all sit right after a digit. -/
theorem collapseAux_id_of_no_digit :
    ∀ (fuel : Nat) (p : Option Char) (s : Str), isDigitOpt p = false →
      (∀ c ∈ s, isDigitCh c = false) → collapseAux fuel p s = s := by
  intro fuel
  induction fuel with
  | zero => intro p s _ _; rfl
  | succ n ih =>
    intro p s hp hs
    match s with
    | [] => rfl
    | c :: rest =>
      have hc : isDigitCh c = false := hs c (by simp)
      have hcond : (isDigitOpt p && isSpaceCh c &&
          unitAhead ((c :: rest).dropWhile isSpaceCh)) = false := by
        simp [hp]
      simp only [collapseAux, hcond, Bool.false_eq_true, if_false]
      have := ih (some c) rest (by simpa [isDigitOpt] using hc)
        (fun d hd => hs d (by simp [hd]))
      rw [this]

/-- The head of a rewritten nonempty text is the value's head or the text's
head. -/
theorem replaceAllAux_head (k v : Str) (hv : v ≠ []) (fuel : Nat) (s : Str)
    (h : Char) (r : Str) (heq : replaceAllAux k v fuel s = h :: r) :
    (∃ vt, v = h :: vt) ∨ (∃ t, s = h :: t) := by
  cases fuel with
  | zero => exact Or.inr ⟨r, heq⟩
  | succ n =>
    by_cases hpre : 1 ≤ k.length ∧ k.isPrefixOf s = true
    · rw [replaceAllAux_succ, if_pos hpre] at heq
      match v, hv, heq with
      | v0 :: vt, _, heq =>
        rw [List.cons_append] at heq
        injection heq with h1 _
        exact Or.inl ⟨vt, by rw [h1]⟩
    · rw [replaceAllAux_succ, if_neg hpre] at heq
      match s, heq with
      | [], heq => simp at heq
      | c :: rest, heq =>
        have heq2 : c :: replaceAllAux k v n rest = h :: r := heq
        injection heq2 with h1 _
        exact Or.inr ⟨rest, by rw [h1]⟩

/-- Scanner normal form for the м-then-2 detector. -/
theorem hasM2_cons (a : Char) (t : Str) :
    hasM2 (a :: t) = ((a == 'м' && t.head? == some '2') || hasM2 t) := by
  cases t with
  | nil => simp [hasM2]
  | cons b t2 => simp [hasM2]

/-- Scanner normal form for the м-then-caret-then-2 detector. -/
theorem hasMCaret2_cons (a : Char) (t : Str) :
    hasMCaret2 (a :: t) =
      ((a == 'м' && t.head? == some '^' && (t.drop 1).head? == some '2') ||
        hasMCaret2 t) := by
  cases t with
  | nil => simp [hasMCaret2]
  | cons b t2 =>
    cases t2 with
    | nil => simp [hasMCaret2]
    | cons c t3 => simp [hasMCaret2]

theorem hasM2_tail_false {a : Char} {t : Str} (h : hasM2 (a :: t) = false) :
    hasM2 t = false := by
  rw [hasM2_cons] at h
  exact (Bool.or_eq_false_iff.mp h).2

theorem hasMCaret2_tail_false {a : Char} {t : Str}
    (h : hasMCaret2 (a :: t) = false) : hasMCaret2 t = false := by
  rw [hasMCaret2_cons] at h
  exact (Bool.or_eq_false_iff.mp h).2

theorem hasM2_drop_false {t : Str} (n : Nat) (h : hasM2 t = false) :
    hasM2 (t.drop n) = false := by
  induction n generalizing t with
  | zero => exact h
  | succ m ih =>
    match t with
    | [] => exact h
    | a :: t2 => exact ih (hasM2_tail_false h)

theorem hasM2_dropWhile_false {t : Str} (p : Char → Bool)
    (h : hasM2 t = false) : hasM2 (t.dropWhile p) = false := by
  induction t with
  | nil => exact h
  | cons a t2 ih =>
    rw [List.dropWhile_cons]
    by_cases hp : p a = true
    · rw [if_pos hp]; exact ih (hasM2_tail_false h)
    · rw [if_neg hp]; exact h

theorem hasMCaret2_dropWhile_false {t : Str} (p : Char → Bool)
    (h : hasMCaret2 t = false) : hasMCaret2 (t.dropWhile p) = false := by
  induction t with
  | nil => exact h
  | cons a t2 ih =>
    rw [List.dropWhile_cons]
    by_cases hp : p a = true
    · rw [if_pos hp]; exact ih (hasMCaret2_tail_false h)
    · rw [if_neg hp]; exact h

/-- Any text containing м immediately followed by 2 trips the detector. -/
theorem hasM2_append (xs ys : Str) : hasM2 (xs ++ 'м' :: '2' :: ys) = true := by
  induction xs with
  | nil => simp [hasM2_cons]
  | cons a t ih => rw [List.cons_append, hasM2_cons, ih]; simp

/-- Any text containing м^2 trips the caret detector. -/
theorem hasMCaret2_append (xs ys : Str) :
    hasMCaret2 (xs ++ 'м' :: '^' :: '2' :: ys) = true := by
  induction xs with
  | nil => simp [hasMCaret2_cons]
  | cons a t ih => rw [List.cons_append, hasMCaret2_cons, ih]; simp

/-- Substring occurrence is list infixhood. -/
theorem occursIn_spec (k t : Str) : occursIn k t = true ↔ k <:+: t := by
  induction t with
  | nil =>
    simp only [occursIn, List.isPrefixOf_iff_prefix]
    constructor
    · intro h; exact h.isInfix
    · intro h; exact (List.infix_nil.mp h) ▸ List.nil_prefix
  | cons c rest ih =>
    simp only [occursIn, Bool.or_eq_true, List.isPrefixOf_iff_prefix, ih,
      List.infix_cons_iff]
/-- After `replace("м2", "м²")` no м is immediately followed by 2: the scan
removes every occurrence (which cannot overlap each other), and the value
ends in '²', so no new pair arises at a seam. -/
theorem hasM2_replace_m2 :
    ∀ (fuel : Nat) (s : Str), s.length ≤ fuel →
      hasM2 (replaceAllAux (['м', '2']) (['м', '²']) fuel s) = false := by
  intro fuel
  induction fuel with
  | zero =>
    intro s hs
    have hnil : s = [] := List.eq_nil_of_length_eq_zero (Nat.le_zero.mp hs)
    subst hnil
    rfl
  | succ n ih =>
    intro s hs
    by_cases hpre : 1 ≤ (['м', '2'] : Str).length ∧ (['м', '2'] : Str).isPrefixOf s = true
    · obtain ⟨t, rfl⟩ : ∃ t, s = 'м' :: '2' :: t := by
        obtain ⟨t, ht⟩ := List.isPrefixOf_iff_prefix.mp hpre.2
        exact ⟨t, ht.symm⟩
      rw [replaceAllAux_succ, if_pos hpre]
      show hasM2 ('м' :: '²' :: replaceAllAux (['м', '2']) (['м', '²']) n t) = false
      rw [hasM2_cons, hasM2_cons, ih t (by simp at hs; omega)]
      simp
    · rw [replaceAllAux_succ, if_neg hpre]
      cases s with
      | nil => rfl
      | cons c rest =>
        show hasM2 (c :: replaceAllAux (['м', '2']) (['м', '²']) n rest) = false
        rw [hasM2_cons, ih rest (by simp at hs; omega)]
        simp only [Bool.or_false, Bool.and_eq_false_iff]
        by_cases hc : c = 'м'
        · subst hc
          refine Or.inr ?_
          cases hX : replaceAllAux (['м', '2']) (['м', '²']) n rest with
          | nil => simp
          | cons h r =>
            rcases replaceAllAux_head (['м', '2']) (['м', '²']) (by simp) n rest h r hX
              with ⟨vt, hv⟩ | ⟨t2, ht2⟩
            · injection hv with h1 _
              simp [← h1]
            · by_cases h2 : h = '2'
              · exfalso
                apply hpre
                subst h2
                subst ht2
                exact ⟨by simp, by simp [List.isPrefixOf]⟩
              · simp [h2]
        · exact Or.inl (by simp [hc])

/-- `replace("м^2", "м²")` preserves the absence of м-then-2 pairs. -/
theorem hasM2_replace_mcaret2 :
    ∀ (fuel : Nat) (s : Str), s.length ≤ fuel → hasM2 s = false →
      hasM2 (replaceAllAux (['м', '^', '2']) (['м', '²']) fuel s) = false := by
  intro fuel
  induction fuel with
  | zero =>
    intro s hs _
    have hnil : s = [] := List.eq_nil_of_length_eq_zero (Nat.le_zero.mp hs)
    subst hnil
    rfl
  | succ n ih =>
    intro s hs hm2
    by_cases hpre : 1 ≤ (['м', '^', '2'] : Str).length ∧
        (['м', '^', '2'] : Str).isPrefixOf s = true
    · obtain ⟨t, rfl⟩ : ∃ t, s = 'м' :: '^' :: '2' :: t := by
        obtain ⟨t, ht⟩ := List.isPrefixOf_iff_prefix.mp hpre.2
        exact ⟨t, ht.symm⟩
      rw [replaceAllAux_succ, if_pos hpre]
      show hasM2 ('м' :: '²' :: replaceAllAux (['м', '^', '2']) (['м', '²']) n t) = false
      have ht : hasM2 t = false :=
        hasM2_tail_false (hasM2_tail_false (hasM2_tail_false hm2))
      rw [hasM2_cons, hasM2_cons, ih t (by simp at hs; omega) ht]
      simp
    · rw [replaceAllAux_succ, if_neg hpre]
      cases s with
      | nil => rfl
      | cons c rest =>
        show hasM2 (c :: replaceAllAux (['м', '^', '2']) (['м', '²']) n rest) = false
        rw [hasM2_cons, ih rest (by simp at hs; omega) (hasM2_tail_false hm2)]
        simp only [Bool.or_false, Bool.and_eq_false_iff]
        by_cases hc : c = 'м'
        · subst hc
          refine Or.inr ?_
          cases hX : replaceAllAux (['м', '^', '2']) (['м', '²']) n rest with
          | nil => simp
          | cons h r =>
            rcases replaceAllAux_head (['м', '^', '2']) (['м', '²']) (by simp) n rest h r hX
              with ⟨vt, hv⟩ | ⟨t2, ht2⟩
            · injection hv with h1 _
              simp [← h1]
            · by_cases h2 : h = '2'
              · exfalso
                subst h2
                subst ht2
                rw [hasM2_cons] at hm2
                simp at hm2
              · simp [h2]
        · exact Or.inl (by simp [hc])

/-- After `replace("м^2", "м²")` no м^2 triple remains: occurrences cannot
overlap, and the value cannot recreate one at a seam. -/
theorem hasMCaret2_replace_mcaret2 :
    ∀ (fuel : Nat) (s : Str), s.length ≤ fuel →
      hasMCaret2 (replaceAllAux (['м', '^', '2']) (['м', '²']) fuel s) = false := by
  intro fuel
  induction fuel with
  | zero =>
    intro s hs
    have hnil : s = [] := List.eq_nil_of_length_eq_zero (Nat.le_zero.mp hs)
    subst hnil
    rfl
  | succ n ih =>
    intro s hs
    by_cases hpre : 1 ≤ (['м', '^', '2'] : Str).length ∧
        (['м', '^', '2'] : Str).isPrefixOf s = true
    · obtain ⟨t, rfl⟩ : ∃ t, s = 'м' :: '^' :: '2' :: t := by
        obtain ⟨t, ht⟩ := List.isPrefixOf_iff_prefix.mp hpre.2
        exact ⟨t, ht.symm⟩
      rw [replaceAllAux_succ, if_pos hpre]
      show hasMCaret2
        ('м' :: '²' :: replaceAllAux (['м', '^', '2']) (['м', '²']) n t) = false
      rw [hasMCaret2_cons, hasMCaret2_cons, ih t (by simp at hs; omega)]
      simp
    · rw [replaceAllAux_succ, if_neg hpre]
      cases s with
      | nil => rfl
      | cons c rest =>
        show hasMCaret2 (c :: replaceAllAux (['м', '^', '2']) (['м', '²']) n rest) = false
        rw [hasMCaret2_cons, ih rest (by simp at hs; omega)]
        simp only [Bool.or_false, Bool.and_eq_false_iff]
        by_cases hc : c = 'м'
        · subst hc
          cases hX : replaceAllAux (['м', '^', '2']) (['м', '²']) n rest with
          | nil => simp
          | cons h r =>
            rcases replaceAllAux_head (['м', '^', '2']) (['м', '²']) (by simp) n rest h r hX
              with ⟨vt, hv⟩ | ⟨t2, ht2⟩
            · injection hv with h1 _
              exact Or.inl (Or.inr (by simp [← h1]))
            · by_cases hh : h = '^'
              · subst hh
                subst ht2
                cases n with
                | zero => simp at hs
                | succ m =>
                  have hX2 : replaceAllAux (['м', '^', '2']) (['м', '²']) (m + 1)
                      ('^' :: t2) =
                      '^' :: replaceAllAux (['м', '^', '2']) (['м', '²']) m t2 := by
                    rw [replaceAllAux_succ, if_neg]
                    rintro ⟨-, hp⟩
                    simp [List.isPrefixOf] at hp
                  rw [hX2] at hX
                  injection hX with _ h2
                  refine Or.inr ?_
                  rw [← h2]
                  cases hY : replaceAllAux (['м', '^', '2']) (['м', '²']) m t2 with
                  | nil => simp
                  | cons h3 r3 =>
                    rcases replaceAllAux_head (['м', '^', '2']) (['м', '²']) (by simp)
                        m t2 h3 r3 hY with ⟨vt3, hv3⟩ | ⟨t4, ht4⟩
                    · injection hv3 with h31 _
                      simp [← h31]
                    · by_cases h32 : h3 = '2'
                      · exfalso
                        apply hpre
                        subst h32
                        subst ht4
                        exact ⟨by simp, by simp [List.isPrefixOf]⟩
                      · simp [h32]
              · exact Or.inl (Or.inr (by simp [hh]))
        · exact Or.inl (Or.inl (by simp [hc]))

/-- Absence of м-then-2 pairs rules out every digit-form unit key. -/
theorem not_occursIn_unit_digit_keys {t : Str} (h : hasM2 t = false) :
    occursIn (['м', 'м', '2']) t = false ∧ occursIn (['с', 'м', '2']) t = false ∧
      occursIn (['м', '2']) t = false := by
  refine ⟨?_, ?_, ?_⟩ <;> by_contra hocc <;> rw [Bool.not_eq_false] at hocc
  · obtain ⟨pre, suf, heq⟩ := (occursIn_spec _ _).mp hocc
    rw [← heq, show pre ++ ['м', 'м', '2'] ++ suf =
      (pre ++ ['м']) ++ 'м' :: '2' :: suf by simp, hasM2_append] at h
    exact Bool.true_eq_false.mp h
  · obtain ⟨pre, suf, heq⟩ := (occursIn_spec _ _).mp hocc
    rw [← heq, show pre ++ ['с', 'м', '2'] ++ suf =
      (pre ++ ['с']) ++ 'м' :: '2' :: suf by simp, hasM2_append] at h
    exact Bool.true_eq_false.mp h
  · obtain ⟨pre, suf, heq⟩ := (occursIn_spec _ _).mp hocc
    rw [← heq, show pre ++ ['м', '2'] ++ suf =
      pre ++ 'м' :: '2' :: suf by simp, hasM2_append] at h
    exact Bool.true_eq_false.mp h

/-- Absence of м^2 triples rules out every caret-form unit key. -/
theorem not_occursIn_unit_caret_keys {t : Str} (h : hasMCaret2 t = false) :
    occursIn (['м', 'м', '^', '2']) t = false ∧
      occursIn (['с', 'м', '^', '2']) t = false ∧
      occursIn (['м', '^', '2']) t = false := by
  refine ⟨?_, ?_, ?_⟩ <;> by_contra hocc <;> rw [Bool.not_eq_false] at hocc
  · obtain ⟨pre, suf, heq⟩ := (occursIn_spec _ _).mp hocc
    rw [← heq, show pre ++ ['м', 'м', '^', '2'] ++ suf =
      (pre ++ ['м']) ++ 'м' :: '^' :: '2' :: suf by simp, hasMCaret2_append] at h
    exact Bool.true_eq_false.mp h
  · obtain ⟨pre, suf, heq⟩ := (occursIn_spec _ _).mp hocc
    rw [← heq, show pre ++ ['с', 'м', '^', '2'] ++ suf =
      (pre ++ ['с']) ++ 'м' :: '^' :: '2' :: suf by simp, hasMCaret2_append] at h
    exact Bool.true_eq_false.mp h
  · obtain ⟨pre, suf, heq⟩ := (occursIn_spec _ _).mp hocc
    rw [← heq, show pre ++ ['м', '^', '2'] ++ suf =
      pre ++ 'м' :: '^' :: '2' :: suf by simp, hasMCaret2_append] at h
    exact Bool.true_eq_false.mp h

/-- Unfolding: the whitespace collapse is inert on the empty text. -/
theorem collapseAux_nil (fuel : Nat) (p : Option Char) : collapseAux fuel p [] = [] := by
  cases fuel <;> rfl

/-- Unfolding: one collapse step. -/
theorem collapseAux_succ (fuel : Nat) (p : Option Char) (c : Char) (rest : Str) :
    collapseAux (fuel + 1) p (c :: rest) =
      if isDigitOpt p && isSpaceCh c && unitAhead ((c :: rest).dropWhile isSpaceCh) then
        collapseAux fuel (some c) ((c :: rest).dropWhile isSpaceCh)
      else c :: collapseAux fuel (some c) rest := rfl

/-- When the deletion condition fails, the scan copies the character. -/
theorem collapseAux_copy (fuel : Nat) (p : Option Char) (c : Char) (rest : Str)
    (h : (isDigitOpt p && isSpaceCh c &&
      unitAhead ((c :: rest).dropWhile isSpaceCh)) = false) :
    collapseAux (fuel + 1) p (c :: rest) = c :: collapseAux fuel (some c) rest := by
  rw [collapseAux_succ, if_neg]
  simp [h]

/-- With a non-digit previous character, the scan copies the character. -/
theorem collapseAux_copy_nondigit (fuel : Nat) (p : Option Char) (c : Char)
    (rest : Str) (hq : isDigitOpt p = false) :
    collapseAux (fuel + 1) p (c :: rest) = c :: collapseAux fuel (some c) rest :=
  collapseAux_copy fuel p c rest (by simp [hq])

/-- With a non-whitespace current character, the scan copies it. -/
theorem collapseAux_copy_nonspace (fuel : Nat) (p : Option Char) (c : Char)
    (rest : Str) (hc : isSpaceCh c = false) :
    collapseAux (fuel + 1) p (c :: rest) = c :: collapseAux fuel (some c) rest :=
  collapseAux_copy fuel p c rest (by simp [hc])

/-- With a non-digit previous character the head of the text survives. -/
theorem collapseAux_headq (fuel : Nat) (q : Option Char) (t : Str)
    (hq : isDigitOpt q = false) : (collapseAux fuel q t).head? = t.head? := by
  cases t with
  | nil => rw [collapseAux_nil]
  | cons e r2 =>
    cases fuel with
    | zero => rfl
    | succ n => rw [collapseAux_copy_nondigit n q e r2 hq]; simp

/-- With non-digit previous and head characters, the second character of the
text also survives. -/
theorem collapseAux_drop1_headq (fuel : Nat) (q : Option Char) (e : Char)
    (r2 : Str) (hq : isDigitOpt q = false) (he : isDigitCh e = false) :
    ((collapseAux fuel q (e :: r2)).drop 1).head? = r2.head? := by
  cases fuel with
  | zero => rfl
  | succ n =>
    rw [collapseAux_copy_nondigit n q e r2 hq]
    simpa using collapseAux_headq n (some e) r2 (by simpa [isDigitOpt] using he)

/-- Characters of the collapsed text come from the original text. -/
theorem mem_collapseAux :
    ∀ (fuel : Nat) (p : Option Char) (s : Str) (c : Char),
      c ∈ collapseAux fuel p s → c ∈ s := by
  intro fuel
  induction fuel with
  | zero => intro p s c h; exact h
  | succ n ih =>
    intro p s c h
    cases s with
    | nil => rw [collapseAux_nil] at h; exact absurd h (by simp)
    | cons d rest =>
      by_cases hcond : (isDigitOpt p && isSpaceCh d &&
          unitAhead ((d :: rest).dropWhile isSpaceCh)) = true
      · rw [collapseAux_succ, if_pos hcond] at h
        exact (List.dropWhile_sublist isSpaceCh).subset (ih _ _ c h)
      · rw [collapseAux_copy n p d rest (by simpa using hcond)] at h
        rcases List.mem_cons.mp h with rfl | h2
        · simp
        · exact List.mem_cons_of_mem _ (ih _ _ c h2)

/-- The collapsed text is no longer than the original. -/
theorem collapseAux_length :
    ∀ (fuel : Nat) (p : Option Char) (s : Str),
      (collapseAux fuel p s).length ≤ s.length := by
  intro fuel
  induction fuel with
  | zero => intro p s; exact Nat.le_refl _
  | succ n ih =>
    intro p s
    cases s with
    | nil => rw [collapseAux_nil]
    | cons d rest =>
      by_cases hcond : (isDigitOpt p && isSpaceCh d &&
          unitAhead ((d :: rest).dropWhile isSpaceCh)) = true
      · rw [collapseAux_succ, if_pos hcond]
        exact Nat.le_trans (ih _ _) (List.dropWhile_sublist isSpaceCh).length_le
      · rw [collapseAux_copy n p d rest (by simpa using hcond)]
        simpa using ih (some d) rest

/-- A text the unit lookahead accepts starts with м or с. -/
theorem unitAhead_head {u : Str} (h : unitAhead u = true) :
    ∃ d t, u = d :: t ∧ (d = 'м' ∨ d = 'с') := by
  cases u with
  | nil => simp [unitAhead, List.isPrefixOf] at h
  | cons d t =>
    refine ⟨d, t, rfl, ?_⟩
    simp only [unitAhead, Bool.or_eq_true] at h
    rcases h with (h | h) | h
    · simp only [List.isPrefixOf, Bool.and_eq_true, beq_iff_eq] at h
      exact Or.inl h.1.symm
    · simp only [List.isPrefixOf, Bool.and_eq_true, beq_iff_eq] at h
      exact Or.inr h.1.symm
    · simp only [List.isPrefixOf, Bool.and_eq_true, beq_iff_eq] at h
      exact Or.inl h.1.symm

/-- The unit lookahead in terms of the first three characters. -/
theorem unitAhead_cons_iff (d : Char) (u : Str) :
    unitAhead (d :: u) = true ↔
      ((d = 'м' ∧ u.head? = some '²') ∨
       (d = 'м' ∧ u.head? = some 'м' ∧ (u.drop 1).head? = some '²') ∨
       (d = 'с' ∧ u.head? = some 'м' ∧ (u.drop 1).head? = some '²')) := by
  cases u with
  | nil => simp [unitAhead, List.isPrefixOf]
  | cons u1 u2 =>
    cases u2 with
    | nil =>
      simp only [unitAhead, List.isPrefixOf, Bool.or_eq_true, Bool.and_eq_true,
        beq_iff_eq, List.head?_cons, List.drop_nil, List.head?_nil, Option.some.injEq,
        List.drop_succ_cons, and_false, or_false, false_and, false_or, and_true]
      tauto
    | cons u3 u4 =>
      simp only [unitAhead, List.isPrefixOf, Bool.or_eq_true, Bool.and_eq_true,
        beq_iff_eq, List.head?_cons, Option.some.injEq, List.drop_succ_cons,
        List.drop_zero, and_true, true_and]
      tauto

/-- The whitespace collapse never creates a м-then-2 pair. -/
theorem hasM2_collapseAux :
    ∀ (fuel : Nat) (p : Option Char) (s : Str), hasM2 s = false →
      hasM2 (collapseAux fuel p s) = false := by
  intro fuel
  induction fuel with
  | zero => intro p s h; exact h
  | succ n ih =>
    intro p s h
    cases s with
    | nil => rw [collapseAux_nil]; rfl
    | cons c rest =>
      by_cases hcond : (isDigitOpt p && isSpaceCh c &&
          unitAhead ((c :: rest).dropWhile isSpaceCh)) = true
      · rw [collapseAux_succ, if_pos hcond]
        exact ih _ _ (hasM2_dropWhile_false _ h)
      · rw [collapseAux_copy n p c rest (by simpa using hcond)]
        rw [hasM2_cons, ih (some c) rest (hasM2_tail_false h)]
        simp only [Bool.or_false, Bool.and_eq_false_iff]
        by_cases hc : c = 'м'
        · subst hc
          refine Or.inr ?_
          rw [collapseAux_headq n (some 'м') rest (by decide)]
          cases hr : rest.head? with
          | none => simp
          | some e =>
            by_cases he : e = '2'
            · exfalso
              subst he
              cases rest with
              | nil => simp at hr
              | cons r0 r1 =>
                simp only [List.head?_cons, Option.some.injEq] at hr
                subst hr
                rw [hasM2_cons] at h
                simp at h
            · simp [he]
        · exact Or.inl (by simp [hc])

/-- The whitespace collapse never creates a м^2 triple. -/
theorem hasMCaret2_collapseAux :
    ∀ (fuel : Nat) (p : Option Char) (s : Str), hasMCaret2 s = false →
      hasMCaret2 (collapseAux fuel p s) = false := by
  intro fuel
  induction fuel with
  | zero => intro p s h; exact h
  | succ n ih =>
    intro p s h
    cases s with
    | nil => rw [collapseAux_nil]; rfl
    | cons c rest =>
      by_cases hcond : (isDigitOpt p && isSpaceCh c &&
          unitAhead ((c :: rest).dropWhile isSpaceCh)) = true
      · rw [collapseAux_succ, if_pos hcond]
        exact ih _ _ (hasMCaret2_dropWhile_false _ h)
      · rw [collapseAux_copy n p c rest (by simpa using hcond)]
        rw [hasMCaret2_cons, ih (some c) rest (hasMCaret2_tail_false h)]
        simp only [Bool.or_false, Bool.and_eq_false_iff]
        by_cases hc : c = 'м'
        · subst hc
          rw [collapseAux_headq n (some 'м') rest (by decide)]
          cases hr : rest.head? with
          | none => exact Or.inl (Or.inr (by simp))
          | some e =>
            by_cases he : e = '^'
            · subst he
              cases rest with
              | nil => simp at hr
              | cons r0 r1 =>
                simp only [List.head?_cons, Option.some.injEq] at hr
                subst hr
                refine Or.inr ?_
                rw [collapseAux_drop1_headq n (some 'м') '^' r1 (by decide) (by decide)]
                cases hr1 : r1.head? with
                | none => simp
                | some e2 =>
                  by_cases he2 : e2 = '2'
                  · exfalso
                    subst he2
                    cases r1 with
                    | nil => simp at hr1
                    | cons r2 r3 =>
                      simp only [List.head?_cons, Option.some.injEq] at hr1
                      subst hr1
                      rw [hasMCaret2_cons] at h
                      simp at h
                  · simp [he2]
            · exact Or.inl (Or.inr (by simp [he]))
        · exact Or.inl (Or.inl (by simp [hc]))

/-- Under a non-digit previous character, a unit lookahead that succeeds
after the collapse already succeeded before it. -/
theorem unitAhead_dropWhile_collapse :
    ∀ (fuel : Nat) (q : Option Char) (t : Str), isDigitOpt q = false →
      unitAhead ((collapseAux fuel q t).dropWhile isSpaceCh) = true →
      unitAhead (t.dropWhile isSpaceCh) = true := by
  intro fuel
  induction fuel with
  | zero => intro q t _ h; exact h
  | succ n ih =>
    intro q t hq h
    cases t with
    | nil => rw [collapseAux_nil] at h; exact h
    | cons e r2 =>
      rw [collapseAux_copy_nondigit n q e r2 hq] at h
      by_cases hse : isSpaceCh e = true
      · rw [List.dropWhile_cons, if_pos hse] at h ⊢
        exact ih (some e) r2 (by simpa [isDigitOpt] using isSpaceCh_not_digit hse) h
      · rw [List.dropWhile_cons, if_neg (by simp [hse])] at h ⊢
        rw [unitAhead_cons_iff] at h ⊢
        rcases h with ⟨he, h2⟩ | ⟨he, h2, h3⟩ | ⟨he, h2, h3⟩
        · subst he
          rw [collapseAux_headq n (some 'м') r2 (by decide)] at h2
          exact Or.inl ⟨rfl, h2⟩
        · subst he
          rw [collapseAux_headq n (some 'м') r2 (by decide)] at h2
          cases r2 with
          | nil => simp at h2
          | cons d2 r3 =>
            simp only [List.head?_cons, Option.some.injEq] at h2
            subst h2
            rw [collapseAux_drop1_headq n (some 'м') 'м' r3 (by decide) (by decide)] at h3
            exact Or.inr (Or.inl ⟨rfl, by simp, by simpa using h3⟩)
        · subst he
          rw [collapseAux_headq n (some 'с') r2 (by decide)] at h2
          cases r2 with
          | nil => simp at h2
          | cons d2 r3 =>
            simp only [List.head?_cons, Option.some.injEq] at h2
            subst h2
            rw [collapseAux_drop1_headq n (some 'с') 'м' r3 (by decide) (by decide)] at h3
            exact Or.inr (Or.inr ⟨rfl, by simp, by simpa using h3⟩)

/-- The whitespace-collapsing scan is idempotent: a second pass over its
output (with sufficient fuel on both passes) changes nothing. -/
theorem collapseAux_idem :
    ∀ (N : Nat) (s : Str), s.length ≤ N → ∀ (f g : Nat) (p : Option Char),
      s.length ≤ f → (collapseAux f p s).length ≤ g →
      collapseAux g p (collapseAux f p s) = collapseAux f p s := by
  intro N
  induction N with
  | zero =>
    intro s hs f g p _ _
    have hnil : s = [] := List.eq_nil_of_length_eq_zero (Nat.le_zero.mp hs)
    subst hnil
    rw [collapseAux_nil, collapseAux_nil]
  | succ N ih =>
    intro s hsN f g p hf hg
    cases s with
    | nil => rw [collapseAux_nil, collapseAux_nil]
    | cons c rest =>
      cases f with
      | zero => simp at hf
      | succ f1 =>
        by_cases hcond : (isDigitOpt p && isSpaceCh c &&
            unitAhead ((c :: rest).dropWhile isSpaceCh)) = true
        · have hua : unitAhead ((c :: rest).dropWhile isSpaceCh) = true := by
            simp only [Bool.and_eq_true] at hcond
            exact hcond.2
          have hsp : isSpaceCh c = true := by
            simp only [Bool.and_eq_true] at hcond
            exact hcond.1.2
          obtain ⟨d, r2, hdr, hd⟩ := unitAhead_head hua
          have hdw : (c :: rest).dropWhile isSpaceCh = rest.dropWhile isSpaceCh := by
            rw [List.dropWhile_cons, if_pos hsp]
          have hrd : rest.dropWhile isSpaceCh = d :: r2 := by rw [← hdw, hdr]
          have hlen2 : r2.length + 1 ≤ rest.length := by
            have h1 := congrArg List.length hrd
            have h2 := (List.dropWhile_sublist (l := rest) isSpaceCh).length_le
            simp only [List.length_cons] at h1
            omega
          rw [collapseAux_succ, if_pos hcond, hdr] at hg ⊢
          have hcd : isDigitOpt (some c) = false := by
            simpa [isDigitOpt] using isSpaceCh_not_digit hsp
          cases f1 with
          | zero =>
            exfalso
            simp only [List.length_cons] at hf
            have : rest = [] := by
              have : rest.length = 0 := by omega
              exact List.eq_nil_of_length_eq_zero this
            subst this
            simp [List.dropWhile] at hrd
          | succ f2 =>
            rw [collapseAux_copy_nondigit f2 (some c) d r2 hcd] at hg ⊢
            cases g with
            | zero => simp at hg
            | succ g1 =>
              have hds : isSpaceCh d = false := by rcases hd with rfl | rfl <;> decide
              rw [collapseAux_copy_nonspace g1 p d _ hds]
              congr 1
              refine ih r2 (by simp only [List.length_cons] at hsN; omega) f2 g1 (some d)
                ?_ ?_
              · simp only [List.length_cons] at hf
                omega
              · simp only [List.length_cons] at hg
                omega
        · have hout : collapseAux (f1 + 1) p (c :: rest) =
              c :: collapseAux f1 (some c) rest :=
            collapseAux_copy f1 p c rest (by simpa using hcond)
          rw [hout] at hg ⊢
          cases g with
          | zero => simp at hg
          | succ g1 =>
            have hreceq : collapseAux g1 (some c) (collapseAux f1 (some c) rest) =
                collapseAux f1 (some c) rest := by
              refine ih rest (by simp only [List.length_cons] at hsN; omega) f1 g1 (some c)
                ?_ ?_
              · simp only [List.length_cons] at hf
                omega
              · simp only [List.length_cons] at hg
                omega
            by_cases hpd : (isDigitOpt p = true) ∧ (isSpaceCh c = true)
            · have hua0 : unitAhead (rest.dropWhile isSpaceCh) = false := by
                have hb : unitAhead ((c :: rest).dropWhile isSpaceCh) = false := by
                  by_contra hT
                  rw [Bool.not_eq_false] at hT
                  refine hcond ?_
                  simp only [hpd.1, hpd.2, Bool.true_and]
                  exact hT
                rwa [List.dropWhile_cons, if_pos hpd.2] at hb
              have hkey : unitAhead
                  ((c :: collapseAux f1 (some c) rest).dropWhile isSpaceCh) = false := by
                rw [List.dropWhile_cons, if_pos hpd.2]
                by_contra hT
                rw [Bool.not_eq_false] at hT
                have hTT := unitAhead_dropWhile_collapse f1 (some c) rest
                  (by simpa [isDigitOpt] using isSpaceCh_not_digit hpd.2) hT
                rw [hua0] at hTT
                exact Bool.false_ne_true hTT
              rw [collapseAux_copy g1 p c _ (by simp [hkey])]
              rw [hreceq]
            · have hcf : (isDigitOpt p && isSpaceCh c && unitAhead
                  ((c :: collapseAux f1 (some c) rest).dropWhile isSpaceCh)) = false := by
                rcases not_and_or.mp hpd with h | h
                · rw [Bool.not_eq_true] at h
                  simp [h]
                · rw [Bool.not_eq_true] at h
                  simp [h]
              rw [collapseAux_copy g1 p c _ hcf]
              rw [hreceq]

theorem replaceAll_id (k v s : Str) (h : occursIn k s = false) :
    replaceAll k v s = s :=
  replaceAllAux_id k v s.length s h

theorem mem_replaceAll {k v s : Str} {c : Char} (h : c ∈ replaceAll k v s) :
    c ∈ s ∨ c ∈ v :=
  mem_replaceAllAux k v s.length s c h

theorem not_mem_replaceAll_single (a : Char) (v t : Str) (hv : a ∉ v) :
    a ∉ replaceAll [a] v t :=
  replaceAllAux_single_elim a v hv t.length t (Nat.le_refl _)

/-- The replacement loop of `normalize_text`, unfolded in source order. -/
theorem applyReplacements_eq (s : Str) :
    applyReplacements s =
      replaceAll (['м', '^', '2']) (['м', '²'])
        (replaceAll (['м', '2']) (['м', '²'])
          (replaceAll (['с', 'м', '^', '2']) (['с', 'м', '²'])
            (replaceAll (['с', 'м', '2']) (['с', 'м', '²'])
              (replaceAll (['м', 'м', '^', '2']) (['м', 'м', '²'])
                (replaceAll (['м', 'м', '2']) (['м', 'м', '²'])
                  (replaceAll (['ё']) (['е'])
                    (replaceAll (['—']) (['-'])
                      (replaceAll (['–']) (['-'])
                        (replaceAll (['х']) (['x']) s))))))))) := by
  simp only [applyReplacements, replacements, List.foldl]

/-- One, two, three and four steps of the replacement loop, peeled off. -/
theorem applyReplacements_peel1 (s : Str) :
    applyReplacements s =
      List.foldl (fun t kv => replaceAll kv.1 kv.2 t)
        (replaceAll (['х']) (['x']) s)
        ([ (['–'], ['-']), (['—'], ['-']), (['ё'], ['е']),
           (['м', 'м', '2'], ['м', 'м', '²']),
           (['м', 'м', '^', '2'], ['м', 'м', '²']),
           (['с', 'м', '2'], ['с', 'м', '²']),
           (['с', 'м', '^', '2'], ['с', 'м', '²']),
           (['м', '2'], ['м', '²']),
           (['м', '^', '2'], ['м', '²']) ]) := by
  simp only [applyReplacements, replacements, List.foldl_cons]

theorem applyReplacements_peel2 (s : Str) :
    applyReplacements s =
      List.foldl (fun t kv => replaceAll kv.1 kv.2 t)
        (replaceAll (['–']) (['-']) (replaceAll (['х']) (['x']) s))
        ([ (['—'], ['-']), (['ё'], ['е']),
           (['м', 'м', '2'], ['м', 'м', '²']),
           (['м', 'м', '^', '2'], ['м', 'м', '²']),
           (['с', 'м', '2'], ['с', 'м', '²']),
           (['с', 'м', '^', '2'], ['с', 'м', '²']),
           (['м', '2'], ['м', '²']),
           (['м', '^', '2'], ['м', '²']) ]) := by
  simp only [applyReplacements, replacements, List.foldl_cons]

theorem applyReplacements_peel3 (s : Str) :
    applyReplacements s =
      List.foldl (fun t kv => replaceAll kv.1 kv.2 t)
        (replaceAll (['—']) (['-'])
          (replaceAll (['–']) (['-']) (replaceAll (['х']) (['x']) s)))
        ([ (['ё'], ['е']),
           (['м', 'м', '2'], ['м', 'м', '²']),
           (['м', 'м', '^', '2'], ['м', 'м', '²']),
           (['с', 'м', '2'], ['с', 'м', '²']),
           (['с', 'м', '^', '2'], ['с', 'м', '²']),
           (['м', '2'], ['м', '²']),
           (['м', '^', '2'], ['м', '²']) ]) := by
  simp only [applyReplacements, replacements, List.foldl_cons]

theorem applyReplacements_peel4 (s : Str) :
    applyReplacements s =
      List.foldl (fun t kv => replaceAll kv.1 kv.2 t)
        (replaceAll (['ё']) (['е'])
          (replaceAll (['—']) (['-'])
            (replaceAll (['–']) (['-']) (replaceAll (['х']) (['x']) s))))
        ([ (['м', 'м', '2'], ['м', 'м', '²']),
           (['м', 'м', '^', '2'], ['м', 'м', '²']),
           (['с', 'м', '2'], ['с', 'м', '²']),
           (['с', 'м', '^', '2'], ['с', 'м', '²']),
           (['м', '2'], ['м', '²']),
           (['м', '^', '2'], ['м', '²']) ]) := by
  simp only [applyReplacements, replacements, List.foldl_cons]

/-- Characters after the replacement loop come from the input or from some
replacement value. -/
theorem mem_foldl_replaceAll :
    ∀ (rs : List (Str × Str)) (s : Str) (c : Char),
      c ∈ rs.foldl (fun t kv => replaceAll kv.1 kv.2 t) s →
      c ∈ s ∨ ∃ kv ∈ rs, c ∈ kv.2 := by
  intro rs
  induction rs with
  | nil => intro s c h; exact Or.inl h
  | cons kv rest ih =>
    intro s c h
    rw [List.foldl_cons] at h
    rcases ih _ c h with h2 | h2
    · rcases mem_replaceAll h2 with h3 | h3
      · exact Or.inl h3
      · exact Or.inr ⟨kv, by simp, h3⟩
    · obtain ⟨kv2, hkv2, hc⟩ := h2
      exact Or.inr ⟨kv2, by simp [hkv2], hc⟩

/-- A character absent from the base text and from every value stays absent
through the rest of the replacement loop. -/
theorem not_mem_foldl_replaceAll :
    ∀ (rs : List (Str × Str)) (s : Str) (a : Char), a ∉ s →
      (∀ kv ∈ rs, a ∉ kv.2) → a ∉ rs.foldl (fun t kv => replaceAll kv.1 kv.2 t) s := by
  intro rs
  induction rs with
  | nil => intro s a hs _ h; exact hs h
  | cons kv rest ih =>
    intro s a hs hv h
    rw [List.foldl_cons] at h
    refine ih _ a ?_ (fun kv2 hk => hv kv2 (by simp [hk])) h
    intro hmem
    rcases mem_replaceAll hmem with h2 | h2
    · exact hs h2
    · exact hv kv (by simp) h2

/-- The four single-character keys are gone after the replacement loop. -/
theorem applyReplacements_no_singles (s : Str) :
    'х' ∉ applyReplacements s ∧ '–' ∉ applyReplacements s ∧
      '—' ∉ applyReplacements s ∧ 'ё' ∉ applyReplacements s := by
  refine ⟨?_, ?_, ?_, ?_⟩
  · rw [applyReplacements_peel1]
    exact not_mem_foldl_replaceAll _ _ 'х'
      (not_mem_replaceAll_single 'х' (['x']) s (by decide)) (by decide)
  · rw [applyReplacements_peel2]
    exact not_mem_foldl_replaceAll _ _ '–'
      (not_mem_replaceAll_single '–' (['-']) _ (by decide)) (by decide)
  · rw [applyReplacements_peel3]
    exact not_mem_foldl_replaceAll _ _ '—'
      (not_mem_replaceAll_single '—' (['-']) _ (by decide)) (by decide)
  · rw [applyReplacements_peel4]
    exact not_mem_foldl_replaceAll _ _ 'ё'
      (not_mem_replaceAll_single 'ё' (['е']) _ (by decide)) (by decide)

/-- After the replacement loop no м2 pair and no м^2 triple remains: the last
two replacements eliminate them and do not recreate them. -/
theorem applyReplacements_no_m2 (s : Str) :
    hasM2 (applyReplacements s) = false ∧ hasMCaret2 (applyReplacements s) = false := by
  rw [applyReplacements_eq]
  constructor
  · exact hasM2_replace_mcaret2 _ _ (Nat.le_refl _)
      (hasM2_replace_m2 _ _ (Nat.le_refl _))
  · exact hasMCaret2_replace_mcaret2 _ _ (Nat.le_refl _)

/-- Every character of a normalized text is already lower-case. -/
theorem normalize_text_lowered (s : Str) :
    ∀ c ∈ normalize_text s, lowerChar c = c := by
  intro c hc
  have h1 : c ∈ applyReplacements (s.map lowerChar) :=
    mem_collapseAux _ none _ c hc
  rcases mem_foldl_replaceAll replacements (s.map lowerChar) c h1 with h2 | h2
  · obtain ⟨a, _, rfl⟩ := List.mem_map.mp h2
    exact lowerChar_idem a
  · obtain ⟨kv, hkv, hc2⟩ := h2
    exact (by decide : ∀ kv ∈ replacements, ∀ c ∈ kv.2, lowerChar c = c) kv hkv c hc2

/-- C8: `normalize` is idempotent: running it again on its own output
changes nothing — the output is already lower-case, contains none of the
replacement keys, and has no whitespace left between a digit and a unit. -/
theorem claim_C8 (s : Str) : normalize_text (normalize_text s) = normalize_text s := by
  have hlow : (normalize_text s).map lowerChar = normalize_text s :=
    map_lowerChar_id _ (normalize_text_lowered s)
  have hsing : 'х' ∉ normalize_text s ∧ '–' ∉ normalize_text s ∧
      '—' ∉ normalize_text s ∧ 'ё' ∉ normalize_text s := by
    refine ⟨fun h => ?_, fun h => ?_, fun h => ?_, fun h => ?_⟩
    · exact (applyReplacements_no_singles _).1 (mem_collapseAux _ none _ _ h)
    · exact (applyReplacements_no_singles _).2.1 (mem_collapseAux _ none _ _ h)
    · exact (applyReplacements_no_singles _).2.2.1 (mem_collapseAux _ none _ _ h)
    · exact (applyReplacements_no_singles _).2.2.2 (mem_collapseAux _ none _ _ h)
  have hm2 : hasM2 (normalize_text s) = false :=
    hasM2_collapseAux _ none _ (applyReplacements_no_m2 (s.map lowerChar)).1
  have hmc2 : hasMCaret2 (normalize_text s) = false :=
    hasMCaret2_collapseAux _ none _ (applyReplacements_no_m2 (s.map lowerChar)).2
  have hdig := not_occursIn_unit_digit_keys hm2
  have hcar := not_occursIn_unit_caret_keys hmc2
  have hocc1 : occursIn (['х']) (normalize_text s) = false :=
    Bool.eq_false_iff.mpr (fun hT => hsing.1 ((occursIn_singleton _ _).mp hT))
  have hocc2 : occursIn (['–']) (normalize_text s) = false :=
    Bool.eq_false_iff.mpr (fun hT => hsing.2.1 ((occursIn_singleton _ _).mp hT))
  have hocc3 : occursIn (['—']) (normalize_text s) = false :=
    Bool.eq_false_iff.mpr (fun hT => hsing.2.2.1 ((occursIn_singleton _ _).mp hT))
  have hocc4 : occursIn (['ё']) (normalize_text s) = false :=
    Bool.eq_false_iff.mpr (fun hT => hsing.2.2.2 ((occursIn_singleton _ _).mp hT))
  show collapseSpaces (applyReplacements ((normalize_text s).map lowerChar)) =
    normalize_text s
  rw [hlow, applyReplacements_eq]
  rw [replaceAll_id (['х']) (['x']) _ hocc1]
  rw [replaceAll_id (['–']) (['-']) _ hocc2]
  rw [replaceAll_id (['—']) (['-']) _ hocc3]
  rw [replaceAll_id (['ё']) (['е']) _ hocc4]
  rw [replaceAll_id (['м', 'м', '2']) (['м', 'м', '²']) _ hdig.1]
  rw [replaceAll_id (['м', 'м', '^', '2']) (['м', 'м', '²']) _ hcar.1]
  rw [replaceAll_id (['с', 'м', '2']) (['с', 'м', '²']) _ hdig.2.1]
  rw [replaceAll_id (['с', 'м', '^', '2']) (['с', 'м', '²']) _ hcar.2.1]
  rw [replaceAll_id (['м', '2']) (['м', '²']) _ hdig.2.2]
  rw [replaceAll_id (['м', '^', '2']) (['м', '²']) _ hcar.2.2]
  show collapseAux (normalize_text s).length none (normalize_text s) = normalize_text s
  exact collapseAux_idem (applyReplacements (s.map lowerChar)).length _ (Nat.le_refl _)
    _ _ none (Nat.le_refl _) (Nat.le_refl _)

/-- C1: `match_query(r, q, requireAll)` counts the occurrences of `q` (each
occurrence separately, even repeated token strings) whose token is present in
`tokenize(r)` — presence being insensitive to duplicates among the row's
tokens, as the count is unchanged when the row tokens are deduplicated — and
returns that count, gated under `requireAll` by the count being the full
length of `q`. -/
theorem claim_C1 (r : Str) (q : List Str) (ra : Bool) :
    match_query r q ra =
      (if ra then
        (if q.countP (fun w => decide (w ∈ (split_preserve_sizes r).dedup)) = q.length
         then q.countP (fun w => decide (w ∈ (split_preserve_sizes r).dedup)) else 0)
       else q.countP (fun w => decide (w ∈ (split_preserve_sizes r).dedup))) := by
  have h : q.countP (fun w => decide (w ∈ (split_preserve_sizes r).dedup)) =
      q.countP (fun w => decide (w ∈ split_preserve_sizes r)) := by
    refine List.countP_congr ?_
    intro w _
    simp [List.mem_dedup]
  rw [h]
  rfl

/-- C3 counterexample: the input "2x3y" reaches the final extraction pass
unchanged, and that pass emits "2x3" then "y" — the compound-size
alternative is preferred even though the word-character run "2x3y" is a
longer match at the same position, so the pass is not longest-match. -/
theorem claim_C3_counterexample :
    collapseUnits (mergeSizes (normalize_text (("2x3y").data))) = ("2x3y").data ∧
    split_preserve_sizes (("2x3y").data) = [("2x3").data, ("y").data] ∧
    extractLongest (("2x3y").data) = [("2x3y").data] := by decide

/-- C3 amended: the final pass scans left to right and at each position emits
the first match among the alternatives in their fixed order — a compound
size token, then мм², см², м², then a maximal word-character run — preferring
an earlier alternative even when a later one matches a longer substring
(Python alternation semantics); non-word unmatched characters are skipped. -/
theorem claim_C3_amended :
    split_preserve_sizes (("2x3y").data) = [("2x3").data, ("y").data] ∧
    split_preserve_sizes (("мм²абв").data) = [("мм²").data, ("абв").data] ∧
    split_preserve_sizes (("2x2мм²").data) = [("2x2").data, ("мм²").data] ∧
    tokenizeStr ("привет, мир!") = [("привет"), ("мир")] := by decide

/-- C4: an empty query yields score 0 in both modes, for every row text. -/
theorem claim_C4 (r : Str) (ra : Bool) : match_query r [] ra = 0 := by
  cases ra <;> rfl

/-- C5: `tokenize("плита 2 x 2.5 мм")` has exactly one token "2x2.5"
(no separate "2" and "2.5") and a word token "мм" (not "мм²"). -/
theorem claim_C5 :
    tokenizeStr ("плита 2 x 2.5 мм") = [("плита"), ("2x2.5"), ("мм")] := by decide

/-- C6: all four separator variants produce the identical single compound
token "2x2.5" (separator forced to literal Latin x, no whitespace), and the
decimal separator of each number is preserved as written. -/
theorem claim_C6 :
    tokenizeStr ("2х2.5") = [("2x2.5")] ∧
    tokenizeStr ("2×2.5") = [("2x2.5")] ∧
    tokenizeStr ("2*2.5") = [("2x2.5")] ∧
    tokenizeStr ("2 x 2.5") = [("2x2.5")] ∧
    tokenizeStr ("2×2,5") = [("2x2,5")] := by decide

/-- C7: "5 мм2", "5мм^2" and "5 мм²" all normalize to the same "5мм²" with no
whitespace between digit and unit; whitespace elsewhere is untouched (shown
on a phrase with surrounding words, and in general the whitespace-collapsing
scan is the identity on digit-free text). -/
theorem claim_C7 :
    normalize_text (("5 мм2").data) = ("5мм²").data ∧
    normalize_text (("5мм^2").data) = ("5мм²").data ∧
    normalize_text (("5 мм²").data) = ("5мм²").data ∧
    normalize_text (("прайс 5 мм2 лист").data) = ("прайс 5мм² лист").data ∧
    (∀ s : Str, (∀ c ∈ s, isDigitCh c = false) → collapseSpaces s = s) := by
  refine ⟨by decide, by decide, by decide, by decide, ?_⟩
  intro s hs
  exact collapseAux_id_of_no_digit s.length none s rfl hs

/-- C7 witness: the universal whitespace-preservation part evaluated on the
digit-free text "а б". -/
theorem claim_C7_witness :
    (∀ c ∈ ("а б").data, isDigitCh c = false) ∧
    collapseSpaces (("а б").data) = ("а б").data :=
  ⟨by decide, claim_C7.2.2.2.2 (("а б").data) (by decide)⟩

/-- C9: the bare-м pattern never fires after a word character — with a word
character as the previous character (in particular the м of "мм" or the с of
"см"), the bare-м scan just copies the current character — while "мм 2" and
"см 2" do collapse to "мм²" and "см²" through their own patterns. -/
theorem claim_C9 :
    (∀ (fuel : Nat) (p c : Char) (rest : Str), isWordCh p = true →
      unitSubAux (("м").data) (("м²").data) (fuel + 1) (some p) (c :: rest) =
        c :: unitSubAux (("м").data) (("м²").data) fuel (some c) rest) ∧
    collapseUnits (("мм 2").data) = ("мм²").data ∧
    collapseUnits (("см 2").data) = ("см²").data := by
  refine ⟨?_, by decide, by decide⟩
  intro fuel p c rest hp
  simp [unitSubAux, boundaryOk, hp]

/-- C9 witness: the no-fire property applied right after the first м of
"мм 2" (previous character м, a word character). -/
theorem claim_C9_witness :
    isWordCh 'м' = true ∧
    unitSubAux (("м").data) (("м²").data) 3 (some 'м') ('м' :: (" 2").data) =
      'м' :: unitSubAux (("м").data) (("м²").data) 2 (some 'м') ((" 2").data) :=
  ⟨by decide, claim_C9.1 2 'м' 'м' ((" 2").data) (by decide)⟩

/-- C10: after normalization deletes the digit-unit whitespace, '²' counts as
a word character, so "5 мм²" (and "5 мм2") tokenize to the single fused token
"5мм²" — консequently a query for the bare unit "мм²" does not match the row. -/
theorem claim_C10 :
    tokenizeStr ("5 мм²") = [("5мм²")] ∧
    tokenizeStr ("5 мм2") = [("5мм²")] ∧
    match_query (("5 мм²").data) [("мм²").data] false = 0 := by decide

end SheetSearch
